import Mathlib

/-!
Shallow embedding of the fernet-ts library (src/Fernet.ts, src/utils/crypto.ts).

Bytes are modelled as `Nat` values below 256 (`ValidBytes`); byte buffers as
`List Nat`.  Strings keep Lean's `String`, viewed through `String.data`.

The platform primitives the code calls are modelled as follows:
* `globalThis.atob` / `globalThis.btoa` follow the WHATWG "forgiving base64"
  decode and standard base64 encode algorithms (the platform contract the
  code relies on);
* the AES-128 block cipher underneath `crypto.subtle`'s AES-CBC is an
  abstract pair of functions on 16-byte blocks, passed as parameters; CBC
  chaining and PKCS#7 padding/unpadding — which AES-CBC in WebCrypto
  performs — are modelled explicitly;
* HMAC-SHA256 is an abstract function from key and message to a 32-byte tag;
* the CSPRNG output (IVs, secrets) and the wall clock (`Date.now()`) are
  parameters of the operations that consume them.
-/

namespace FernetTS

/-- ASCII whitespace, the characters the WHATWG forgiving-base64 decode
    (the semantics of `globalThis.atob`) removes before decoding. -/
def isAsciiWhitespace (c : Char) : Bool :=
  c = ' ' || c = '\t' || c = '\n' || c = '\x0c' || c = '\r'

/-- The standard base64 alphabet: index 0..63 to character. -/
def b64Char (n : Nat) : Char :=
  if n < 26 then Char.ofNat (65 + n)
  else if n < 52 then Char.ofNat (97 + (n - 26))
  else if n < 62 then Char.ofNat (48 + (n - 52))
  else if n = 62 then '+'
  else '/'

/-- Inverse of the standard base64 alphabet: character to index 0..63,
    `none` for characters outside the alphabet. -/
def b64Index (c : Char) : Option Nat :=
  if 65 ≤ c.toNat ∧ c.toNat ≤ 90 then some (c.toNat - 65)
  else if 97 ≤ c.toNat ∧ c.toNat ≤ 122 then some (c.toNat - 97 + 26)
  else if 48 ≤ c.toNat ∧ c.toNat ≤ 57 then some (c.toNat - 48 + 52)
  else if c = '+' then some 62
  else if c = '/' then some 63
  else none

/-- Model of `globalThis.btoa`: standard base64 encoding with `=` padding,
    three input bytes per four output characters. -/
def btoaEncode : List Nat → List Char
  | [] => []
  | [b1] => [b64Char (b1 / 4), b64Char (b1 % 4 * 16), '=', '=']
  | [b1, b2] => [b64Char (b1 / 4), b64Char (b1 % 4 * 16 + b2 / 16),
                 b64Char (b2 % 16 * 4), '=']
  | b1 :: b2 :: b3 :: rest =>
      b64Char (b1 / 4) :: b64Char (b1 % 4 * 16 + b2 / 16) ::
      b64Char (b2 % 16 * 4 + b3 / 64) :: b64Char (b3 % 64) :: btoaEncode rest

/-- Remove one or two trailing `=` characters (the padding-stripping step of
    forgiving-base64 decode). -/
def dropTrailPad (l : List Char) : List Char :=
  if l.getLast? = some '=' then
    if l.dropLast.getLast? = some '=' then l.dropLast.dropLast else l.dropLast
  else l

/-- The unpadded character stream of standard base64: `btoaEncode` without
    its trailing `=` characters (what forgiving-base64 decode is left with
    after stripping the padding). -/
def btoaBody : List Nat → List Char
  | [] => []
  | [b1] => [b64Char (b1 / 4), b64Char (b1 % 4 * 16)]
  | [b1, b2] => [b64Char (b1 / 4), b64Char (b1 % 4 * 16 + b2 / 16),
                 b64Char (b2 % 16 * 4)]
  | b1 :: b2 :: b3 :: rest =>
      b64Char (b1 / 4) :: b64Char (b1 % 4 * 16 + b2 / 16) ::
      b64Char (b2 % 16 * 4 + b3 / 64) :: b64Char (b3 % 64) :: btoaBody rest

/-- Reassemble bytes from a list of 6-bit values; a trailing group of two or
    three values yields one or two bytes, the leftover low bits discarded
    (forgiving-base64 semantics). -/
def decodeQuads : List Nat → List Nat
  | a :: b :: c :: d :: rest =>
      (a * 4 + b / 16) :: (b % 16 * 16 + c / 4) :: (c % 4 * 64 + d) ::
      decodeQuads rest
  | [a, b] => [a * 4 + b / 16]
  | [a, b, c] => [a * 4 + b / 16, b % 16 * 16 + c / 4]
  | _ => []

/-- All-or-nothing elementwise lookup: `some` of the images when every
    element is in the alphabet, `none` otherwise. -/
def mapOpt (f : Char → Option Nat) : List Char → Option (List Nat)
  | [] => some []
  | c :: cs =>
      match f c, mapOpt f cs with
      | some n, some ns => some (n :: ns)
      | _, _ => none

/-- Core of forgiving-base64 decode, after whitespace and padding removal:
    fail when the length is ≡ 1 (mod 4) or any character is outside the
    standard base64 alphabet, else reassemble the bytes. -/
def decodeClean (data : List Char) : Option (List Nat) :=
  if data.length % 4 = 1 then none
  else (mapOpt b64Index data).map decodeQuads

/-- Model of `globalThis.atob`: WHATWG forgiving-base64 decode.  Strips ASCII
    whitespace; when the remaining length is a multiple of four, removes up to
    two trailing `=`; then decodes via `decodeClean`. -/
def atobDecode (s : List Char) : Option (List Nat) :=
  decodeClean
    (if (s.filter (fun c => !isAsciiWhitespace c)).length % 4 = 0
     then dropTrailPad (s.filter (fun c => !isAsciiWhitespace c))
     else s.filter (fun c => !isAsciiWhitespace c))

/-- Embedding of `fromBase64Url` (src/utils/crypto.ts): replace every `_`
    with `/`, then every `-` with `+`, and feed the result to `atob`. -/
def fromBase64Url (s : String) : Option (List Nat) :=
  atobDecode ((s.data.map (fun c => if c = '_' then '/' else c)).map
    (fun c => if c = '-' then '+' else c))

/-- Embedding of `toBase64Url` (src/utils/crypto.ts): `btoa` of the bytes,
    then every `+` replaced with `-`, then every `/` replaced with `_`. -/
def toBase64Url (bytes : List Nat) : String :=
  String.mk (((btoaEncode bytes).map (fun c => if c = '+' then '-' else c)).map
    (fun c => if c = '/' then '_' else c))

/-- Byte buffers hold values below 256. -/
def ValidBytes (l : List Nat) : Prop := ∀ x ∈ l, x < 256

instance (l : List Nat) : Decidable (ValidBytes l) := by
  unfold ValidBytes; infer_instance

/-- A well-formed cipher block: 16 valid bytes. -/
def GoodBlock (b : List Nat) : Prop := b.length = 16 ∧ ValidBytes b

instance (b : List Nat) : Decidable (GoodBlock b) := by
  unfold GoodBlock; infer_instance

/-- The base64url alphabet proper: `A`-`Z`, `a`-`z`, `0`-`9`, `-`, `_`
    (RFC 4648 paragraph 5), without padding. -/
def isBase64UrlChar (c : Char) : Bool :=
  (65 ≤ c.toNat && c.toNat ≤ 90) || (97 ≤ c.toNat && c.toNat ≤ 122) ||
  (48 ≤ c.toNat && c.toNat ≤ 57) || c = '-' || c = '_'

/-- The characters `fromBase64Url` can cope with anywhere in its input:
    the standard base64 alphabet, the two URL-safe substitutes, padding,
    and ASCII whitespace.  Any other character forces a decode failure. -/
def acceptableB64Char (c : Char) : Bool :=
  (b64Index c).isSome || c = '-' || c = '_' || c = '=' || isAsciiWhitespace c

/-- Byte-wise XOR of two buffers (truncating to the shorter, as CBC uses it
    only on equal-length 16-byte blocks). -/
def xorBytes (a b : List Nat) : List Nat := List.zipWith Nat.xor a b

/-- CBC-mode encryption chaining, fuel-indexed so that it computes by
    structural recursion: `blockE` is the (keyed) 16-byte block cipher,
    `prev` the previous ciphertext block (initially the IV). -/
def cbcEncAux (blockE : List Nat → List Nat) :
    Nat → List Nat → List Nat → List Nat
  | 0, _, _ => []
  | _ + 1, _, [] => []
  | fuel + 1, prev, p :: ps =>
      let c := blockE (xorBytes ((p :: ps).take 16) prev)
      c ++ cbcEncAux blockE fuel c ((p :: ps).drop 16)

/-- CBC-mode encryption: one block of fuel per input byte is plenty. -/
def cbcEnc (blockE : List Nat → List Nat) (prev pt : List Nat) : List Nat :=
  cbcEncAux blockE pt.length prev pt

/-- CBC-mode decryption chaining, fuel-indexed: `blockD` is the (keyed)
    inverse block cipher. -/
def cbcDecAux (blockD : List Nat → List Nat) :
    Nat → List Nat → List Nat → List Nat
  | 0, _, _ => []
  | _ + 1, _, [] => []
  | fuel + 1, prev, c :: cs =>
      xorBytes (blockD ((c :: cs).take 16)) prev ++
      cbcDecAux blockD fuel ((c :: cs).take 16) ((c :: cs).drop 16)

/-- CBC-mode decryption. -/
def cbcDec (blockD : List Nat → List Nat) (prev ct : List Nat) : List Nat :=
  cbcDecAux blockD ct.length prev ct

/-- PKCS#7 padding to a 16-byte multiple: append k bytes of value k,
    k = 16 − len mod 16 (a full block when already aligned). -/
def pad16 (m : List Nat) : List Nat :=
  let k := 16 - m.length % 16
  m ++ List.replicate k k

/-- PKCS#7 unpadding: the last byte k must be in 1..16 and the last k bytes
    must all equal k; otherwise fail. -/
def unpad16 (m : List Nat) : Option (List Nat) :=
  match m.getLast? with
  | none => none
  | some k =>
      if 1 ≤ k ∧ k ≤ 16 ∧ k ≤ m.length ∧ (m.drop (m.length - k)).all (· = k)
      then some (m.take (m.length - k)) else none

/-- Model of `aesCbcEncrypt` (crypto.subtle AES-CBC encrypt): PKCS#7-pad the
    plaintext, then CBC-encrypt under the abstract block cipher.  At both
    call sites in the code the IV is 16 bytes from the CSPRNG. -/
def aesCbcEncrypt (blockE : List Nat → List Nat) (iv pt : List Nat) :
    List Nat :=
  cbcEnc blockE iv (pad16 pt)

/-- Model of `aesCbcDecrypt` (crypto.subtle AES-CBC decrypt): fails (throws)
    when the IV is not 16 bytes or the ciphertext is empty or not a 16-byte
    multiple, or when the PKCS#7 padding of the CBC-decrypted buffer is
    invalid. -/
def aesCbcDecrypt (blockD : List Nat → List Nat) (iv ct : List Nat) :
    Option (List Nat) :=
  if iv.length = 16 ∧ ct.length % 16 = 0 ∧ ct ≠ [] then
    unpad16 (cbcDec blockD iv ct)
  else none

/-- Big-endian byte encoding of `v` in `n` bytes (the value is taken mod
    256^n, as `DataView.setBigUint64` wraps its argument mod 2^64). -/
def beBytes : Nat → Nat → List Nat
  | 0, _ => []
  | n + 1, v => beBytes n (v / 256) ++ [v % 256]

/-- Big-endian value of a byte buffer. -/
def toBENat (l : List Nat) : Nat := l.foldl (fun acc b => acc * 256 + b) 0

/-- Embedding of `Fernet.getTimestampBuffer`, parameterised by the wall
    clock: `Date.now()` in milliseconds.  The code computes
    `Math.round(currentTimeMs / 1000)` — rounding to the NEAREST second,
    halves up, which on naturals is `(ms + 500) / 1000` — and stores it
    big-endian in 8 bytes. -/
def getTimestampBuffer (nowMs : Nat) : List Nat :=
  beBytes 8 ((nowMs + 500) / 1000)

/-- Result of `Fernet.importKeys`: the two `InvalidSecretError` messages, or
    the pair of key buffers (signing bytes 0..15 bound to HMAC-SHA256 for
    sign+verify, encryption bytes 16..31 bound to AES-CBC for
    encrypt+decrypt by `initializeKeys`). -/
inductive ImportResult where
  | invalidEncoding
  | invalidLength
  | keys (signingKey encryptionKey : List Nat)
deriving DecidableEq, Repr

/-- Embedding of `Fernet.importKeys` and `Fernet.initializeKeys`: base64url
    decode the secret (failure → invalid-encoding error), require exactly 32
    bytes (else invalid-length error), and split into `slice(0,16)` signing
    and `slice(16)` encryption key material. -/
def importKeys (secretKey : String) : ImportResult :=
  match fromBase64Url secretKey with
  | none => .invalidEncoding
  | some keyBuffer =>
      if keyBuffer.length ≠ 32 then .invalidLength
      else .keys (keyBuffer.take 16) (keyBuffer.drop 16)

/-- Embedding of `Fernet.doEncryption`, parameterised by the abstract keyed
    block cipher `blockE`, the abstract HMAC-SHA256 `hmacF` (key, message ↦
    32-byte tag), the 16 CSPRNG bytes `iv`, and the wall clock `nowMs`.
    `plain` is the UTF-8 byte buffer of the plaintext (`TextEncoder`). -/
def doEncryption (blockE : List Nat → List Nat → List Nat)
    (hmacF : List Nat → List Nat → List Nat)
    (iv : List Nat) (nowMs : Nat) (plain : List Nat)
    (signingKey encryptionKey : List Nat) : String :=
  let cipherText := aesCbcEncrypt (blockE encryptionKey) iv plain
  let version : List Nat := [0x80]
  let timestamp := getTimestampBuffer nowMs
  let unsignedToken := version ++ timestamp ++ iv ++ cipherText
  let hmac := hmacF signingKey unsignedToken
  toBase64Url (unsignedToken ++ hmac)

/-- Outcome of `Fernet.doDecryption`: the three `InvalidTokenError` messages,
    the `FailedDecryptionError`, or the recovered plaintext bytes. -/
inductive DecodeResult where
  | invalidTokenEncoding
  | invalidTokenLength
  | failedDecryption
  | invalidTokenSignature
  | ok (plain : List Nat)
deriving DecidableEq, Repr

/-- The IV slice of a decoded token buffer: `tokenBuffer.slice(9, 25)`. -/
def tokenIv (buf : List Nat) : List Nat := (buf.drop 9).take 16

/-- The ciphertext slice of a decoded token buffer:
    `tokenBuffer.slice(25, -32)`. -/
def tokenCt (buf : List Nat) : List Nat := (buf.take (buf.length - 32)).drop 25

/-- The HMAC slice of a decoded token buffer: `tokenBuffer.slice(-32)`. -/
def tokenTag (buf : List Nat) : List Nat := buf.drop (buf.length - 32)

/-- The signed portion of a decoded token buffer:
    `tokenBuffer.slice(0, -32)`. -/
def tokenUnsigned (buf : List Nat) : List Nat := buf.take (buf.length - 32)

/-- Embedding of `Fernet.doDecryption`: base64url decode (failure →
    invalid-encoding), length check `len ≥ 73 ∧ (len − 57) % 16 = 0`
    (failure → invalid-length), slice the fields, attempt AES-CBC decryption
    (failure → failed-decryption), then verify the HMAC over the first
    `len − 32` bytes (mismatch → invalid-signature) and return the
    plaintext.  The version slice `tokenBuffer.slice(0, 1)` is computed by
    the code but never inspected. -/
def doDecryption (blockD : List Nat → List Nat → List Nat)
    (hmacF : List Nat → List Nat → List Nat)
    (fernetToken : String) (signingKey encryptionKey : List Nat) :
    DecodeResult :=
  match fromBase64Url fernetToken with
  | none => .invalidTokenEncoding
  | some tokenBuffer =>
      if tokenBuffer.length < 73 ∨ (tokenBuffer.length - 57) % 16 ≠ 0 then
        .invalidTokenLength
      else
        match aesCbcDecrypt (blockD encryptionKey) (tokenIv tokenBuffer)
            (tokenCt tokenBuffer) with
        | none => .failedDecryption
        | some plainText =>
            if hmacF signingKey (tokenUnsigned tokenBuffer) =
                tokenTag tokenBuffer
            then .ok plainText
            else .invalidTokenSignature

/-- Embedding of `Fernet.generateSecret`, parameterised by the 32 CSPRNG
    bytes: `toBase64Url(getRandomBytes(32))`. -/
def generateSecret (randomBytes : List Nat) : String :=
  toBase64Url randomBytes

example : fromBase64Url "QQ" = some [65] := by decide
example : fromBase64Url "QQ==" = some [65] := by decide
example : fromBase64Url "QQ=" = none := by decide
example : fromBase64Url "++++" = some [251, 239, 190] := by decide
example : fromBase64Url "----" = some [251, 239, 190] := by decide
example : toBase64Url [251, 239, 190] = "----" := by decide
example : fromBase64Url " Q Q\n" = some [65] := by decide
example : fromBase64Url "%" = none := by decide
example : atobDecode [] = some [] := by decide

/-- The base64 alphabet decodes back to the index it encodes. -/
theorem b64Char_index {n : Nat} (h : n < 64) : b64Index (b64Char n) = some n := by
  have hfin : ∀ m : Fin 64, b64Index (b64Char m.val) = some m.val := by decide
  exact hfin ⟨n, h⟩

/-- Base64 alphabet characters are not ASCII whitespace. -/
theorem b64Char_not_ws {n : Nat} (h : n < 64) :
    isAsciiWhitespace (b64Char n) = false := by
  have hfin : ∀ m : Fin 64, isAsciiWhitespace (b64Char m.val) = false := by
    decide
  exact hfin ⟨n, h⟩

/-- Base64 alphabet characters are never the padding character. -/
theorem b64Char_ne_pad {n : Nat} (h : n < 64) : b64Char n ≠ '=' := by
  have hfin : ∀ m : Fin 64, b64Char m.val ≠ '=' := by decide
  exact hfin ⟨n, h⟩

/-- Every character emitted by `btoaEncode` on valid bytes is a base64
    alphabet character or the padding character. -/
theorem btoaEncode_chars (b : List Nat) (hb : ValidBytes b) :
    ∀ c ∈ btoaEncode b, (∃ n, n < 64 ∧ c = b64Char n) ∨ c = '=' := by
  induction b using btoaEncode.induct with
  | case1 => intro c hc; simp [btoaEncode] at hc
  | case2 b1 =>
      have h1 : b1 < 256 := hb b1 (by simp)
      intro c hc
      simp only [btoaEncode, List.mem_cons, List.mem_singleton] at hc
      rcases hc with rfl | rfl | rfl | rfl | h
      · exact Or.inl ⟨b1 / 4, by omega, rfl⟩
      · exact Or.inl ⟨b1 % 4 * 16, by omega, rfl⟩
      · exact Or.inr rfl
      · exact Or.inr rfl
      · simp at h
  | case3 b1 b2 =>
      have h1 : b1 < 256 := hb b1 (by simp)
      have h2 : b2 < 256 := hb b2 (by simp)
      intro c hc
      simp only [btoaEncode, List.mem_cons, List.mem_singleton] at hc
      rcases hc with rfl | rfl | rfl | rfl | h
      · exact Or.inl ⟨b1 / 4, by omega, rfl⟩
      · exact Or.inl ⟨b1 % 4 * 16 + b2 / 16, by omega, rfl⟩
      · exact Or.inl ⟨b2 % 16 * 4, by omega, rfl⟩
      · exact Or.inr rfl
      · simp at h
  | case4 b1 b2 b3 rest ih =>
      have h1 : b1 < 256 := hb b1 (by simp)
      have h2 : b2 < 256 := hb b2 (by simp)
      have h3 : b3 < 256 := hb b3 (by simp)
      have hrest : ValidBytes rest := fun x hx => hb x (by simp [hx])
      intro c hc
      simp only [btoaEncode, List.mem_cons] at hc
      rcases hc with rfl | rfl | rfl | rfl | h
      · exact Or.inl ⟨b1 / 4, by omega, rfl⟩
      · exact Or.inl ⟨b1 % 4 * 16 + b2 / 16, by omega, rfl⟩
      · exact Or.inl ⟨b2 % 16 * 4 + b3 / 64, by omega, rfl⟩
      · exact Or.inl ⟨b3 % 64, by omega, rfl⟩
      · exact ih hrest c h

/-- Mapping a function that fixes every element is the identity. -/
theorem map_id_of {α : Type} (f : α → α) (l : List α)
    (h : ∀ x ∈ l, f x = x) : l.map f = l := by
  induction l with
  | nil => rfl
  | cons a l ih =>
      simp only [List.map_cons, h a (by simp)]
      exact congrArg _ (ih fun x hx => h x (by simp [hx]))

/-- A character-level map that fixes the base64 alphabet and `=` fixes the
    output of `btoaEncode`. -/
theorem map_fix_btoa (f : Char → Char) (b : List Nat) (hb : ValidBytes b)
    (hf : ∀ n, n < 64 → f (b64Char n) = b64Char n) (hpad : f '=' = '=') :
    (btoaEncode b).map f = btoaEncode b := by
  refine map_id_of f _ fun c hc => ?_
  rcases btoaEncode_chars b hb c hc with ⟨n, hn, rfl⟩ | rfl
  · exact hf n hn
  · exact hpad

/-- The output of `btoaEncode` contains no ASCII whitespace, so the
    whitespace-stripping step of forgiving decode leaves it unchanged. -/
theorem filter_btoa (b : List Nat) (hb : ValidBytes b) :
    (btoaEncode b).filter (fun c => !isAsciiWhitespace c) = btoaEncode b := by
  refine List.filter_eq_self.mpr fun c hc => ?_
  rcases btoaEncode_chars b hb c hc with ⟨n, hn, rfl⟩ | rfl
  · simp [b64Char_not_ws hn]
  · decide

/-- `btoaEncode` emits four characters per three-byte group. -/
theorem btoaEncode_length (b : List Nat) :
    (btoaEncode b).length = 4 * ((b.length + 2) / 3) := by
  induction b using btoaEncode.induct with
  | case1 => simp [btoaEncode]
  | case2 b1 => simp [btoaEncode]
  | case3 b1 b2 => simp [btoaEncode]
  | case4 b1 b2 b3 rest ih =>
      simp only [btoaEncode, List.length_cons, ih]
      omega

/-- The unpadded character count is never ≡ 1 (mod 4). -/
theorem btoaBody_mod4 (b : List Nat) : (btoaBody b).length % 4 ≠ 1 := by
  induction b using btoaBody.induct with
  | case1 => simp [btoaBody]
  | case2 b1 => simp [btoaBody]
  | case3 b1 b2 => simp [btoaBody]
  | case4 b1 b2 b3 rest ih =>
      simp only [btoaBody, List.length_cons]
      omega

/-- Stripping padding from a buffer ending in two `=` drops both. -/
theorem dropTrailPad_concat2 (l : List Char) :
    dropTrailPad (l ++ ['=', '=']) = l := by
  have h : l ++ ['=', '='] = (l ++ ['=']) ++ ['='] := by simp
  rw [h]
  unfold dropTrailPad
  simp [List.getLast?_concat, List.dropLast_concat]

/-- Stripping padding from a buffer ending in a single `=` drops it. -/
theorem dropTrailPad_concat1 (l : List Char) (c : Char) (hc : c ≠ '=') :
    dropTrailPad (l ++ [c, '=']) = l ++ [c] := by
  have h : l ++ [c, '='] = (l ++ [c]) ++ ['='] := by simp
  rw [h]
  unfold dropTrailPad
  simp [List.getLast?_concat, List.dropLast_concat, hc]

/-- A buffer not ending in `=` has no padding to strip. -/
theorem dropTrailPad_no_pad (l : List Char) (c : Char) (hc : c ≠ '=') :
    dropTrailPad (l ++ [c]) = l ++ [c] := by
  unfold dropTrailPad
  simp [List.getLast?_concat, hc]

/-- Padding stripping only inspects the last two characters, so it commutes
    with a prefix as long as the suffix keeps at least two characters. -/
theorem dropTrailPad_append_left (u t : List Char) (ht : 2 ≤ t.length) :
    dropTrailPad (u ++ t) = u ++ dropTrailPad t := by
  rcases List.eq_nil_or_concat t with rfl | ⟨t1, z, rfl⟩
  · simp at ht
  rcases List.eq_nil_or_concat t1 with rfl | ⟨t2, y, rfl⟩
  · simp at ht
  simp only [List.concat_eq_append]
  unfold dropTrailPad
  by_cases hz : z = '='
  · by_cases hy : y = '='
    · subst hz; subst hy
      simp [← List.append_assoc, List.getLast?_concat, List.dropLast_concat]
    · subst hz
      simp [← List.append_assoc, List.getLast?_concat, List.dropLast_concat,
        hy]
  · simp [← List.append_assoc, List.getLast?_concat, hz]

/-- Stripping the padding from `btoaEncode` leaves exactly the unpadded
    character stream `btoaBody`. -/
theorem dropTrailPad_btoa (b : List Nat) (hb : ValidBytes b) :
    dropTrailPad (btoaEncode b) = btoaBody b := by
  induction b using btoaEncode.induct with
  | case1 => rfl
  | case2 b1 =>
      show dropTrailPad ([b64Char (b1 / 4), b64Char (b1 % 4 * 16)] ++
        ['=', '=']) = _
      rw [dropTrailPad_concat2]; rfl
  | case3 b1 b2 =>
      have h2 : b2 < 256 := hb b2 (by simp)
      show dropTrailPad ([b64Char (b1 / 4), b64Char (b1 % 4 * 16 + b2 / 16)] ++
        [b64Char (b2 % 16 * 4), '=']) = _
      rw [dropTrailPad_concat1 _ _ (b64Char_ne_pad (by omega))]; rfl
  | case4 b1 b2 b3 rest ih =>
      have h3 : b3 < 256 := hb b3 (by simp)
      have hrest : ValidBytes rest := fun x hx => hb x (by simp [hx])
      cases rest with
      | nil =>
          show dropTrailPad ([b64Char (b1 / 4), b64Char (b1 % 4 * 16 + b2 / 16),
            b64Char (b2 % 16 * 4 + b3 / 64)] ++ [b64Char (b3 % 64)]) = _
          rw [dropTrailPad_no_pad _ _ (b64Char_ne_pad (by omega))]; rfl
      | cons r rs =>
          have hlen : 2 ≤ (btoaEncode (r :: rs)).length := by
            rw [btoaEncode_length]
            simp only [List.length_cons]
            omega
          show dropTrailPad ([b64Char (b1 / 4),
            b64Char (b1 % 4 * 16 + b2 / 16),
            b64Char (b2 % 16 * 4 + b3 / 64), b64Char (b3 % 64)] ++
            btoaEncode (r :: rs)) = _
          rw [dropTrailPad_append_left _ _ hlen, ih hrest]; rfl

/-- Decoding the unpadded character stream recovers the original bytes:
    character lookup then 6-bit reassembly invert `btoaBody`. -/
theorem decode_body (b : List Nat) (hb : ValidBytes b) :
    (mapOpt b64Index (btoaBody b)).map decodeQuads = some b := by
  induction b using btoaBody.induct with
  | case1 => rfl
  | case2 b1 =>
      have h1 : b1 < 256 := hb b1 (by simp)
      simp only [btoaBody, mapOpt,
        b64Char_index (show b1 / 4 < 64 by omega),
        b64Char_index (show b1 % 4 * 16 < 64 by omega)]
      simp only [decodeQuads, Option.map_some', Option.some.injEq,
        List.cons.injEq, and_true]
      omega
  | case3 b1 b2 =>
      have h1 : b1 < 256 := hb b1 (by simp)
      have h2 : b2 < 256 := hb b2 (by simp)
      simp only [btoaBody, mapOpt,
        b64Char_index (show b1 / 4 < 64 by omega),
        b64Char_index (show b1 % 4 * 16 + b2 / 16 < 64 by omega),
        b64Char_index (show b2 % 16 * 4 < 64 by omega)]
      simp only [decodeQuads, Option.map_some', Option.some.injEq,
        List.cons.injEq, and_true]
      constructor <;> omega
  | case4 b1 b2 b3 rest ih =>
      have h1 : b1 < 256 := hb b1 (by simp)
      have h2 : b2 < 256 := hb b2 (by simp)
      have h3 : b3 < 256 := hb b3 (by simp)
      have hrest : ValidBytes rest := fun x hx => hb x (by simp [hx])
      obtain ⟨qs, hqs, hdq⟩ :
          ∃ qs, mapOpt b64Index (btoaBody rest) = some qs ∧
            decodeQuads qs = rest := by
        cases hq : mapOpt b64Index (btoaBody rest) with
        | none =>
            have := ih hrest
            rw [hq] at this
            simp at this
        | some qs =>
            have := ih hrest
            rw [hq] at this
            simp only [Option.map_some', Option.some.injEq] at this
            exact ⟨qs, rfl, this⟩
      simp only [btoaBody, mapOpt,
        b64Char_index (show b1 / 4 < 64 by omega),
        b64Char_index (show b1 % 4 * 16 + b2 / 16 < 64 by omega),
        b64Char_index (show b2 % 16 * 4 + b3 / 64 < 64 by omega),
        b64Char_index (show b3 % 64 < 64 by omega), hqs]
      simp only [decodeQuads, hdq, Option.map_some', Option.some.injEq,
        List.cons.injEq, and_true]
      refine ⟨by omega, by omega, by omega⟩

/-- Forgiving-base64 decode inverts standard base64 encode on valid bytes. -/
theorem atob_btoa (b : List Nat) (hb : ValidBytes b) :
    atobDecode (btoaEncode b) = some b := by
  have hmod : (btoaEncode b).length % 4 = 0 := by
    rw [btoaEncode_length]; omega
  unfold atobDecode
  rw [filter_btoa b hb, if_pos hmod, dropTrailPad_btoa b hb]
  unfold decodeClean
  rw [if_neg (btoaBody_mod4 b), decode_body b hb]

/-- The URL-safe replacements applied by `toBase64Url` are undone by the
    replacements applied by `fromBase64Url`. -/
theorem url_repl_round (b : List Nat) (hb : ValidBytes b) :
    ((((btoaEncode b).map (fun c => if c = '+' then '-' else c)).map
        (fun c => if c = '/' then '_' else c)).map
        (fun c => if c = '_' then '/' else c)).map
        (fun c => if c = '-' then '+' else c) = btoaEncode b := by
  simp only [List.map_map]
  refine map_fix_btoa _ b hb (fun n hn => ?_) (by decide)
  have hfin : ∀ m : Fin 64,
      ((fun c => if c = '-' then '+' else c) ∘
       (fun c => if c = '_' then '/' else c) ∘
       (fun c => if c = '/' then '_' else c) ∘
       (fun c => if c = '+' then '-' else c)) (b64Char m.val) =
      b64Char m.val := by decide
  exact hfin ⟨n, hn⟩

/-- The decode-side replacements of `fromBase64Url` fix standard base64
    output (no `-` or `_` occurs in it). -/
theorem url_repl_std (b : List Nat) (hb : ValidBytes b) :
    (((btoaEncode b).map (fun c => if c = '_' then '/' else c)).map
        (fun c => if c = '-' then '+' else c) = btoaEncode b) := by
  simp only [List.map_map]
  refine map_fix_btoa _ b hb (fun n hn => ?_) (by decide)
  have hfin : ∀ m : Fin 64,
      ((fun c => if c = '-' then '+' else c) ∘
       (fun c => if c = '_' then '/' else c)) (b64Char m.val) =
      b64Char m.val := by decide
  exact hfin ⟨n, hn⟩

/-- Base64url decoding inverts base64url encoding on every valid byte
    buffer. -/
theorem fromBase64Url_toBase64Url (b : List Nat) (hb : ValidBytes b) :
    fromBase64Url (toBase64Url b) = some b := by
  show atobDecode _ = some b
  have hdata : (toBase64Url b).data =
      ((btoaEncode b).map (fun c => if c = '+' then '-' else c)).map
        (fun c => if c = '/' then '_' else c) := rfl
  rw [hdata, url_repl_round b hb]
  exact atob_btoa b hb

/-- Base64url decoding also accepts standard (non URL-safe) base64 text,
    decoding it to the same bytes. -/
theorem fromBase64Url_std (b : List Nat) (hb : ValidBytes b) :
    fromBase64Url (String.mk (btoaEncode b)) = some b := by
  show atobDecode _ = some b
  rw [show (String.mk (btoaEncode b)).data = btoaEncode b from rfl,
    url_repl_std b hb]
  exact atob_btoa b hb

/-- The fuel argument of `cbcEncAux` is irrelevant once it covers the input
    length. -/
theorem cbcEncAux_congr (E : List Nat → List Nat) :
    ∀ (f1 f2 : Nat) (prev pt : List Nat), pt.length ≤ f1 → pt.length ≤ f2 →
      cbcEncAux E f1 prev pt = cbcEncAux E f2 prev pt := by
  intro f1
  induction f1 with
  | zero =>
      intro f2 prev pt h1 h2
      have hpt : pt = [] := List.eq_nil_of_length_eq_zero (Nat.le_zero.mp h1)
      subst hpt
      cases f2 <;> rfl
  | succ f ih =>
      intro f2 prev pt h1 h2
      cases pt with
      | nil => cases f2 <;> rfl
      | cons p ps =>
          cases f2 with
          | zero => simp at h2
          | succ g =>
              simp only [cbcEncAux]
              congr 1
              apply ih
              · simp only [List.length_drop, List.length_cons]
                simp only [List.length_cons] at h1
                omega
              · simp only [List.length_drop, List.length_cons]
                simp only [List.length_cons] at h2
                omega

/-- Unfolding lemma for CBC encryption on a non-empty plaintext. -/
theorem cbcEnc_unfold (E : List Nat → List Nat) (prev pt : List Nat)
    (h : pt ≠ []) :
    cbcEnc E prev pt =
      E (xorBytes (pt.take 16) prev) ++
      cbcEnc E (E (xorBytes (pt.take 16) prev)) (pt.drop 16) := by
  cases pt with
  | nil => exact absurd rfl h
  | cons p ps =>
      show cbcEncAux E (ps.length + 1) prev (p :: ps) = _
      simp only [cbcEncAux]
      congr 1
      apply cbcEncAux_congr
      · simp only [List.length_drop, List.length_cons]; omega
      · exact le_refl _

/-- The fuel argument of `cbcDecAux` is irrelevant once it covers the input
    length. -/
theorem cbcDecAux_congr (D : List Nat → List Nat) :
    ∀ (f1 f2 : Nat) (prev ct : List Nat), ct.length ≤ f1 → ct.length ≤ f2 →
      cbcDecAux D f1 prev ct = cbcDecAux D f2 prev ct := by
  intro f1
  induction f1 with
  | zero =>
      intro f2 prev ct h1 h2
      have hct : ct = [] := List.eq_nil_of_length_eq_zero (Nat.le_zero.mp h1)
      subst hct
      cases f2 <;> rfl
  | succ f ih =>
      intro f2 prev ct h1 h2
      cases ct with
      | nil => cases f2 <;> rfl
      | cons c cs =>
          cases f2 with
          | zero => simp at h2
          | succ g =>
              simp only [cbcDecAux]
              congr 1
              apply ih
              · simp only [List.length_drop, List.length_cons]
                simp only [List.length_cons] at h1
                omega
              · simp only [List.length_drop, List.length_cons]
                simp only [List.length_cons] at h2
                omega

/-- Unfolding lemma for CBC decryption on a non-empty ciphertext. -/
theorem cbcDec_unfold (D : List Nat → List Nat) (prev ct : List Nat)
    (h : ct ≠ []) :
    cbcDec D prev ct =
      xorBytes (D (ct.take 16)) prev ++ cbcDec D (ct.take 16) (ct.drop 16) := by
  cases ct with
  | nil => exact absurd rfl h
  | cons c cs =>
      show cbcDecAux D (cs.length + 1) prev (c :: cs) = _
      simp only [cbcDecAux]
      congr 1
      apply cbcDecAux_congr
      · simp only [List.length_drop, List.length_cons]; omega
      · exact le_refl _

/-- XOR-ing with the same buffer twice is the identity, as long as the mask
    is at least as long. -/
theorem xorBytes_cancel :
    ∀ (a b : List Nat), a.length ≤ b.length → xorBytes (xorBytes a b) b = a := by
  intro a
  induction a with
  | nil => intro b _; rfl
  | cons x xs ih =>
      intro b hb
      cases b with
      | nil => simp at hb
      | cons y ys =>
          simp only [xorBytes, List.zipWith_cons_cons, List.cons.injEq]
          exact ⟨Nat.xor_cancel_right y x,
            ih ys (by simp only [List.length_cons] at hb; omega)⟩

/-- XOR of valid bytes is a valid byte. -/
theorem xorBytes_valid :
    ∀ (a b : List Nat), ValidBytes a → ValidBytes b →
      ValidBytes (xorBytes a b) := by
  intro a
  induction a with
  | nil => intro b _ _ x hx; simp [xorBytes] at hx
  | cons x xs ih =>
      intro b ha hb z hz
      cases b with
      | nil => simp [xorBytes] at hz
      | cons y ys =>
          simp only [xorBytes, List.zipWith_cons_cons, List.mem_cons] at hz
          rcases hz with rfl | hz
          · have hx : x < 2 ^ 8 := ha x (by simp)
            have hy : y < 2 ^ 8 := hb y (by simp)
            exact Nat.xor_lt_two_pow hx hy
          · exact ih ys (fun u hu => ha u (by simp [hu]))
              (fun u hu => hb u (by simp [hu])) z hz

/-- CBC encryption preserves length and byte validity on block-aligned
    input. -/
theorem cbcEnc_good (E : List Nat → List Nat)
    (hE : ∀ b, GoodBlock b → GoodBlock (E b)) :
    ∀ (n : Nat) (prev pt : List Nat), pt.length ≤ n → GoodBlock prev →
      pt.length % 16 = 0 → ValidBytes pt →
      (cbcEnc E prev pt).length = pt.length ∧
        ValidBytes (cbcEnc E prev pt) := by
  intro n
  induction n with
  | zero =>
      intro prev pt h1 _ _ _
      have hpt : pt = [] := List.eq_nil_of_length_eq_zero (Nat.le_zero.mp h1)
      subst hpt
      exact ⟨rfl, fun x hx => by simp [cbcEnc, cbcEncAux] at hx⟩
  | succ n ih =>
      intro prev pt h1 hprev hmod hv
      cases hpt : pt with
      | nil => exact ⟨by simp [hpt, cbcEnc, cbcEncAux], fun x hx => by
          simp [cbcEnc, cbcEncAux] at hx⟩
      | cons p ps =>
          subst hpt
          have hlen : 16 ≤ (p :: ps).length := by
            simp only [List.length_cons] at hmod ⊢
            omega
          have hblk : GoodBlock ((p :: ps).take 16) := by
            constructor
            · simp only [List.length_take]; omega
            · exact fun x hx => hv x (List.mem_of_mem_take hx)
          have hx : GoodBlock (xorBytes ((p :: ps).take 16) prev) := by
            constructor
            · simp only [xorBytes, List.length_zipWith, hblk.1, hprev.1,
                Nat.min_self]
            · exact xorBytes_valid _ _ hblk.2 hprev.2
          have hc : GoodBlock (E (xorBytes ((p :: ps).take 16) prev)) :=
            hE _ hx
          have hdrop : ((p :: ps).drop 16).length ≤ n := by
            simp only [List.length_drop, List.length_cons]
            simp only [List.length_cons] at h1
            omega
          have hdropmod : ((p :: ps).drop 16).length % 16 = 0 := by
            simp only [List.length_drop]
            omega
          have hdropv : ValidBytes ((p :: ps).drop 16) :=
            fun x hxm => hv x (List.mem_of_mem_drop hxm)
          have hrec := ih _ _ hdrop hc hdropmod hdropv
          rw [cbcEnc_unfold E prev _ (by simp)]
          constructor
          · simp only [List.length_append, hrec.1, hc.1, List.length_drop]
            omega
          · intro x hxm
            rcases List.mem_append.mp hxm with hxm | hxm
            · exact hc.2 x hxm
            · exact hrec.2 x hxm

/-- CBC decryption inverts CBC encryption on block-aligned valid input when
    the block cipher pair is inverse on good blocks. -/
theorem cbcDec_cbcEnc (E D : List Nat → List Nat)
    (hE : ∀ b, GoodBlock b → GoodBlock (E b))
    (hD : ∀ b, GoodBlock b → D (E b) = b) :
    ∀ (n : Nat) (prev pt : List Nat), pt.length ≤ n → GoodBlock prev →
      pt.length % 16 = 0 → ValidBytes pt →
      cbcDec D prev (cbcEnc E prev pt) = pt := by
  intro n
  induction n with
  | zero =>
      intro prev pt h1 _ _ _
      have hpt : pt = [] := List.eq_nil_of_length_eq_zero (Nat.le_zero.mp h1)
      subst hpt
      rfl
  | succ n ih =>
      intro prev pt h1 hprev hmod hv
      cases hpt : pt with
      | nil => rfl
      | cons p ps =>
          subst hpt
          have hlen : 16 ≤ (p :: ps).length := by
            simp only [List.length_cons] at hmod ⊢
            omega
          have hblk : GoodBlock ((p :: ps).take 16) := by
            constructor
            · simp only [List.length_take]; omega
            · exact fun x hx => hv x (List.mem_of_mem_take hx)
          have hx : GoodBlock (xorBytes ((p :: ps).take 16) prev) := by
            constructor
            · simp only [xorBytes, List.length_zipWith, hblk.1, hprev.1,
                Nat.min_self]
            · exact xorBytes_valid _ _ hblk.2 hprev.2
          have hc : GoodBlock (E (xorBytes ((p :: ps).take 16) prev)) :=
            hE _ hx
          have hdrop : ((p :: ps).drop 16).length ≤ n := by
            simp only [List.length_drop, List.length_cons]
            simp only [List.length_cons] at h1
            omega
          have hdropmod : ((p :: ps).drop 16).length % 16 = 0 := by
            simp only [List.length_drop]
            omega
          have hdropv : ValidBytes ((p :: ps).drop 16) :=
            fun x hxm => hv x (List.mem_of_mem_drop hxm)
          rw [cbcEnc_unfold E prev _ (by simp)]
          have henc := cbcEnc_good E hE n
            (E (xorBytes ((p :: ps).take 16) prev)) ((p :: ps).drop 16)
            hdrop hc hdropmod hdropv
          have hEne : E (xorBytes ((p :: ps).take 16) prev) ≠ [] := by
            intro hc0
            have hlc := congrArg List.length hc0
            rw [hc.1] at hlc
            simp at hlc
          have hne : E (xorBytes ((p :: ps).take 16) prev) ++
              cbcEnc E (E (xorBytes ((p :: ps).take 16) prev))
                ((p :: ps).drop 16) ≠ [] := by
            simp only [ne_eq, List.append_eq_nil]
            exact fun hcontra => hEne hcontra.1
          rw [cbcDec_unfold D prev _ hne]
          rw [List.take_left' hc.1, List.drop_left' hc.1]
          rw [hD _ hx,
            xorBytes_cancel ((p :: ps).take 16) prev
              (by simp [hblk.1, hprev.1])]
          rw [ih _ _ hdrop hc hdropmod hdropv]
          exact List.take_append_drop 16 (p :: ps)

/-- PKCS#7 padding appends between 1 and 16 bytes and always block-aligns. -/
theorem pad16_length (m : List Nat) :
    (pad16 m).length = 16 * (m.length / 16 + 1) := by
  simp only [pad16, List.length_append, List.length_replicate]
  omega

/-- PKCS#7 padding keeps bytes valid. -/
theorem pad16_valid (m : List Nat) (hm : ValidBytes m) :
    ValidBytes (pad16 m) := by
  intro x hx
  simp only [pad16, List.mem_append, List.mem_replicate] at hx
  rcases hx with hx | ⟨-, rfl⟩
  · exact hm x hx
  · omega

/-- PKCS#7 unpadding inverts PKCS#7 padding. -/
theorem unpad16_pad16 (m : List Nat) : unpad16 (pad16 m) = some m := by
  have hk : 1 ≤ 16 - m.length % 16 ∧ 16 - m.length % 16 ≤ 16 := by omega
  have hsplit : pad16 m =
      (m ++ List.replicate (16 - m.length % 16 - 1) (16 - m.length % 16)) ++
        [16 - m.length % 16] := by
    simp only [pad16, List.append_assoc, List.append_cancel_left_eq]
    rw [← List.replicate_succ' (16 - m.length % 16 - 1)]
    congr 1
    omega
  unfold unpad16
  rw [hsplit, List.getLast?_concat]
  have hlen : ((m ++ List.replicate (16 - m.length % 16 - 1)
      (16 - m.length % 16)) ++ [16 - m.length % 16]).length =
      m.length + (16 - m.length % 16) := by
    simp only [List.length_append, List.length_replicate,
      List.length_singleton]
    omega
  rw [hlen]
  have hdrop : ((m ++ List.replicate (16 - m.length % 16 - 1)
      (16 - m.length % 16)) ++ [16 - m.length % 16]).drop
        (m.length + (16 - m.length % 16) - (16 - m.length % 16)) =
      List.replicate (16 - m.length % 16) (16 - m.length % 16) := by
    rw [← hsplit]
    simp only [pad16]
    have : m.length + (16 - m.length % 16) - (16 - m.length % 16) =
        m.length := by omega
    rw [this, List.drop_left' rfl]
  have htake : ((m ++ List.replicate (16 - m.length % 16 - 1)
      (16 - m.length % 16)) ++ [16 - m.length % 16]).take
        (m.length + (16 - m.length % 16) - (16 - m.length % 16)) = m := by
    rw [← hsplit]
    simp only [pad16]
    have : m.length + (16 - m.length % 16) - (16 - m.length % 16) =
        m.length := by omega
    rw [this, List.take_left' rfl]
  dsimp only
  rw [if_pos]
  · rw [htake]
  · refine ⟨hk.1, hk.2, by omega, ?_⟩
    rw [hdrop]
    simp [List.all_eq_true, List.mem_replicate]

/-- The AES-CBC encrypt model produces a non-empty block-aligned valid
    ciphertext of predictable length. -/
theorem aesCbcEncrypt_good (E : List Nat → List Nat)
    (hE : ∀ b, GoodBlock b → GoodBlock (E b)) (iv pt : List Nat)
    (hiv : GoodBlock iv) (hpt : ValidBytes pt) :
    (aesCbcEncrypt E iv pt).length = 16 * (pt.length / 16 + 1) ∧
      ValidBytes (aesCbcEncrypt E iv pt) := by
  have h := cbcEnc_good E hE (pad16 pt).length iv (pad16 pt) (le_refl _) hiv
    (by rw [pad16_length]; omega) (pad16_valid pt hpt)
  exact ⟨by rw [aesCbcEncrypt, h.1, pad16_length], h.2⟩

/-- The AES-CBC decrypt model inverts the AES-CBC encrypt model. -/
theorem aesCbcDecrypt_aesCbcEncrypt (E D : List Nat → List Nat)
    (hE : ∀ b, GoodBlock b → GoodBlock (E b))
    (hD : ∀ b, GoodBlock b → D (E b) = b) (iv pt : List Nat)
    (hiv : GoodBlock iv) (hpt : ValidBytes pt) :
    aesCbcDecrypt D iv (aesCbcEncrypt E iv pt) = some pt := by
  have hgood := aesCbcEncrypt_good E hE iv pt hiv hpt
  unfold aesCbcDecrypt
  rw [if_pos]
  · unfold aesCbcEncrypt
    rw [cbcDec_cbcEnc E D hE hD (pad16 pt).length iv (pad16 pt) (le_refl _)
      hiv (by rw [pad16_length]; omega) (pad16_valid pt hpt)]
    exact unpad16_pad16 pt
  · refine ⟨hiv.1, by rw [hgood.1]; omega, ?_⟩
    intro hcontra
    have := congrArg List.length hcontra
    rw [hgood.1] at this
    simp at this

/-- Big-endian encoding always produces exactly `n` bytes. -/
theorem beBytes_length (n v : Nat) : (beBytes n v).length = n := by
  induction n generalizing v with
  | zero => rfl
  | succ n ih => simp [beBytes, ih]

/-- Big-endian encoding produces valid bytes. -/
theorem beBytes_valid (n v : Nat) : ValidBytes (beBytes n v) := by
  induction n generalizing v with
  | zero => intro x hx; simp [beBytes] at hx
  | succ n ih =>
      intro x hx
      simp only [beBytes, List.mem_append, List.mem_singleton] at hx
      rcases hx with hx | rfl
      · exact ih (v / 256) x hx
      · omega

/-- Reading a big-endian encoding back gives the value modulo 256^n. -/
theorem toBENat_beBytes (n v : Nat) : toBENat (beBytes n v) = v % 256 ^ n := by
  induction n generalizing v with
  | zero => simp [beBytes, toBENat, Nat.mod_one]
  | succ n ih =>
      have hstep : toBENat (beBytes n (v / 256) ++ [v % 256]) =
          toBENat (beBytes n (v / 256)) * 256 + v % 256 := by
        simp [toBENat, List.foldl_append]
      have hmod : v % (256 ^ n * 256) = v / 256 % 256 ^ n * 256 + v % 256 := by
        have h1 : 256 * (v / 256) + v % 256 = v := Nat.div_add_mod v 256
        have h2 : 256 ^ n * (v / 256 / 256 ^ n) + v / 256 % 256 ^ n =
            v / 256 := Nat.div_add_mod _ _
        have hv : v = (v / 256 % 256 ^ n * 256 + v % 256) +
            (256 ^ n * 256) * (v / 256 / 256 ^ n) := by
          have hr : (v / 256 % 256 ^ n * 256 + v % 256) +
              (256 ^ n * 256) * (v / 256 / 256 ^ n) =
              256 * (256 ^ n * (v / 256 / 256 ^ n) + v / 256 % 256 ^ n) +
                v % 256 := by ring
          rw [hr, h2, h1]
        conv_lhs => rw [hv]
        rw [Nat.add_mul_mod_self_left]
        refine Nat.mod_eq_of_lt ?_
        have hp : 0 < 256 ^ n := Nat.pos_pow_of_pos n (by omega)
        have hlt : v / 256 % 256 ^ n < 256 ^ n := Nat.mod_lt _ hp
        have h3 : (v / 256 % 256 ^ n + 1) * 256 ≤ 256 ^ n * 256 :=
          Nat.mul_le_mul_right 256 (Nat.succ_le_of_lt hlt)
        have h4 : v % 256 < 256 := Nat.mod_lt _ (by omega)
        omega
      simp only [beBytes, hstep, ih (v / 256), pow_succ]
      rw [hmod]

/-- C5 (amended): the timestamp buffer is 8 valid bytes encoding, as an
    8-byte big-endian unsigned integer, the current wall-clock time in
    milliseconds rounded to the NEAREST whole second (`Math.round`, i.e.
    `(ms + 500) / 1000` on naturals) — not truncated. -/
theorem getTimestampBuffer_spec (nowMs : Nat)
    (h : (nowMs + 500) / 1000 < 2 ^ 64) :
    (getTimestampBuffer nowMs).length = 8 ∧
      ValidBytes (getTimestampBuffer nowMs) ∧
      toBENat (getTimestampBuffer nowMs) = (nowMs + 500) / 1000 := by
  refine ⟨beBytes_length 8 _, beBytes_valid 8 _, ?_⟩
  rw [getTimestampBuffer, toBENat_beBytes]
  exact Nat.mod_eq_of_lt (by norm_num at h ⊢; omega)

/-- Master lemma: base64url-decoding the token text produced by
    `doEncryption` recovers the assembled binary token
    version ‖ timestamp ‖ iv ‖ ciphertext ‖ hmac. -/
theorem doEncryption_bytes (blockE hmacF : List Nat → List Nat → List Nat)
    (iv : List Nat) (nowMs : Nat) (plain sk ek : List Nat)
    (hE : ∀ b, GoodBlock b → GoodBlock (blockE ek b))
    (hH : ∀ msg, (hmacF sk msg).length = 32 ∧ ValidBytes (hmacF sk msg))
    (hiv : GoodBlock iv) (hplain : ValidBytes plain) :
    fromBase64Url (doEncryption blockE hmacF iv nowMs plain sk ek) =
      some (([128] ++ getTimestampBuffer nowMs ++ iv ++
        aesCbcEncrypt (blockE ek) iv plain) ++
        hmacF sk ([128] ++ getTimestampBuffer nowMs ++ iv ++
          aesCbcEncrypt (blockE ek) iv plain)) := by
  have hct := aesCbcEncrypt_good (blockE ek) hE iv plain hiv hplain
  refine fromBase64Url_toBase64Url _ ?_
  intro x hx
  have hx5 : x = 128 ∨ x ∈ getTimestampBuffer nowMs ∨ x ∈ iv ∨
      x ∈ aesCbcEncrypt (blockE ek) iv plain ∨
      x ∈ hmacF sk ([128] ++ getTimestampBuffer nowMs ++ iv ++
        aesCbcEncrypt (blockE ek) iv plain) := by
    simpa [List.mem_append, or_assoc] using hx
  rcases hx5 with rfl | h | h | h | h
  · omega
  · exact beBytes_valid 8 _ x h
  · exact hiv.2 x h
  · exact hct.2 x h
  · exact (hH _).2 x h

/-- The fixed-offset slices of `doDecryption` recover the components of an
    assembled token. -/
theorem token_slices (ts iv ct tag : List Nat) (hts : ts.length = 8)
    (hiv : iv.length = 16) (htag : tag.length = 32) :
    tokenIv (([128] ++ ts ++ iv ++ ct) ++ tag) = iv ∧
    tokenCt (([128] ++ ts ++ iv ++ ct) ++ tag) = ct ∧
    tokenTag (([128] ++ ts ++ iv ++ ct) ++ tag) = tag ∧
    tokenUnsigned (([128] ++ ts ++ iv ++ ct) ++ tag) =
      [128] ++ ts ++ iv ++ ct := by
  have hlen : (([128] ++ ts ++ iv ++ ct) ++ tag).length =
      25 + ct.length + 32 := by
    simp [List.length_append, hts, hiv, htag]
    omega
  have hulen : ([128] ++ ts ++ iv ++ ct).length = 25 + ct.length := by
    simp [List.length_append, hts, hiv]
    omega
  have hsub : (([128] ++ ts ++ iv ++ ct) ++ tag).length - 32 =
      25 + ct.length := by omega
  have hunsigned : tokenUnsigned (([128] ++ ts ++ iv ++ ct) ++ tag) =
      [128] ++ ts ++ iv ++ ct := by
    rw [tokenUnsigned, hsub, List.take_left' hulen]
  have htag2 : tokenTag (([128] ++ ts ++ iv ++ ct) ++ tag) = tag := by
    rw [tokenTag, hsub, List.drop_left' hulen]
  have hassoc1 : [128] ++ ts ++ iv ++ ct =
      (([128] ++ ts) ++ iv) ++ ct := by simp [List.append_assoc]
  have hctslice : tokenCt (([128] ++ ts ++ iv ++ ct) ++ tag) = ct := by
    rw [tokenCt, hsub, List.take_left' hulen, hassoc1]
    refine List.drop_left' ?_
    simp [List.length_append, hts, hiv]
  have hassoc2 : ([128] ++ ts ++ iv ++ ct) ++ tag =
      ([128] ++ ts) ++ (iv ++ (ct ++ tag)) := by simp [List.append_assoc]
  have hivslice : tokenIv (([128] ++ ts ++ iv ++ ct) ++ tag) = iv := by
    rw [tokenIv, hassoc2,
      List.drop_left' (by simp [hts] : (([128] : List Nat) ++ ts).length = 9),
      List.take_left' hiv]
  exact ⟨hivslice, hctslice, htag2, hunsigned⟩

/-- C1: Round-trip.  For every message (the UTF-8 bytes of the plaintext,
    including the empty message), every key pair, every 16-byte IV and every
    wall-clock value, decrypting the token produced by `doEncryption` with
    the same keys returns exactly the message, provided the abstract block
    cipher is a 16-byte block permutation and its inverse, and the abstract
    HMAC returns 32-byte tags. -/
theorem fernet_roundtrip (blockE blockD hmacF : List Nat → List Nat → List Nat)
    (iv : List Nat) (nowMs : Nat) (plain sk ek : List Nat) (secret : String)
    (hsecret : importKeys secret = .keys sk ek)
    (hE : ∀ b, GoodBlock b → GoodBlock (blockE ek b))
    (hD : ∀ b, GoodBlock b → blockD ek (blockE ek b) = b)
    (hH : ∀ msg, (hmacF sk msg).length = 32 ∧ ValidBytes (hmacF sk msg))
    (hiv : GoodBlock iv) (hplain : ValidBytes plain) :
    doDecryption blockD hmacF (doEncryption blockE hmacF iv nowMs plain sk ek)
      sk ek = .ok plain := by
  have hct := aesCbcEncrypt_good (blockE ek) hE iv plain hiv hplain
  have hbytes := doEncryption_bytes blockE hmacF iv nowMs plain sk ek
    hE hH hiv hplain
  have hsl := token_slices (getTimestampBuffer nowMs) iv
    (aesCbcEncrypt (blockE ek) iv plain)
    (hmacF sk ([128] ++ getTimestampBuffer nowMs ++ iv ++
      aesCbcEncrypt (blockE ek) iv plain))
    (beBytes_length 8 _) hiv.1 (hH _).1
  have hXlen : ((([128] ++ getTimestampBuffer nowMs ++ iv ++
      aesCbcEncrypt (blockE ek) iv plain)) ++
      hmacF sk ([128] ++ getTimestampBuffer nowMs ++ iv ++
        aesCbcEncrypt (blockE ek) iv plain)).length =
      57 + 16 * (plain.length / 16 + 1) := by
    simp [List.length_append, beBytes_length, hiv.1, (hH _).1, hct.1,
      getTimestampBuffer]
    omega
  unfold doDecryption
  rw [hbytes]
  dsimp only
  rw [if_neg (by rw [hXlen]; omega)]
  rw [hsl.1, hsl.2.1, hsl.2.2.1, hsl.2.2.2]
  rw [aesCbcDecrypt_aesCbcEncrypt (blockE ek) (blockD ek) hE hD iv plain
    hiv hplain]
  dsimp only
  rw [if_pos rfl]

/-- C6: Token structure invariant.  Every token produced by `doEncryption`,
    after base64url decoding, is version(0x80) ‖ timestamp(8 bytes) ‖
    IV(16 bytes, hypothesis) ‖ ciphertext(a positive multiple of 16 bytes) ‖
    HMAC(32 bytes); the total length is at least 73 with
    (length − 57) mod 16 = 0, and the final 32 bytes are the HMAC of the
    preceding bytes under the signing key. -/
theorem token_structure (blockE hmacF : List Nat → List Nat → List Nat)
    (iv : List Nat) (nowMs : Nat) (plain sk ek : List Nat)
    (hE : ∀ b, GoodBlock b → GoodBlock (blockE ek b))
    (hH : ∀ msg, (hmacF sk msg).length = 32 ∧ ValidBytes (hmacF sk msg))
    (hiv : GoodBlock iv) (hplain : ValidBytes plain) :
    fromBase64Url (doEncryption blockE hmacF iv nowMs plain sk ek) =
      some (([128] ++ getTimestampBuffer nowMs ++ iv ++
        aesCbcEncrypt (blockE ek) iv plain) ++
        hmacF sk ([128] ++ getTimestampBuffer nowMs ++ iv ++
          aesCbcEncrypt (blockE ek) iv plain)) ∧
    (getTimestampBuffer nowMs).length = 8 ∧
    iv.length = 16 ∧
    (aesCbcEncrypt (blockE ek) iv plain).length % 16 = 0 ∧
    0 < (aesCbcEncrypt (blockE ek) iv plain).length ∧
    (hmacF sk ([128] ++ getTimestampBuffer nowMs ++ iv ++
      aesCbcEncrypt (blockE ek) iv plain)).length = 32 ∧
    73 ≤ (([128] ++ getTimestampBuffer nowMs ++ iv ++
      aesCbcEncrypt (blockE ek) iv plain) ++
      hmacF sk ([128] ++ getTimestampBuffer nowMs ++ iv ++
        aesCbcEncrypt (blockE ek) iv plain)).length ∧
    ((([128] ++ getTimestampBuffer nowMs ++ iv ++
      aesCbcEncrypt (blockE ek) iv plain) ++
      hmacF sk ([128] ++ getTimestampBuffer nowMs ++ iv ++
        aesCbcEncrypt (blockE ek) iv plain)).length - 57) % 16 = 0 ∧
    tokenTag (([128] ++ getTimestampBuffer nowMs ++ iv ++
      aesCbcEncrypt (blockE ek) iv plain) ++
      hmacF sk ([128] ++ getTimestampBuffer nowMs ++ iv ++
        aesCbcEncrypt (blockE ek) iv plain)) =
      hmacF sk (tokenUnsigned (([128] ++ getTimestampBuffer nowMs ++ iv ++
        aesCbcEncrypt (blockE ek) iv plain) ++
        hmacF sk ([128] ++ getTimestampBuffer nowMs ++ iv ++
          aesCbcEncrypt (blockE ek) iv plain))) := by
  have hct := aesCbcEncrypt_good (blockE ek) hE iv plain hiv hplain
  have hsl := token_slices (getTimestampBuffer nowMs) iv
    (aesCbcEncrypt (blockE ek) iv plain)
    (hmacF sk ([128] ++ getTimestampBuffer nowMs ++ iv ++
      aesCbcEncrypt (blockE ek) iv plain))
    (beBytes_length 8 _) hiv.1 (hH _).1
  refine ⟨doEncryption_bytes blockE hmacF iv nowMs plain sk ek hE hH hiv
    hplain, beBytes_length 8 _, hiv.1, by rw [hct.1]; omega,
    by rw [hct.1]; omega, (hH _).1, ?_, ?_, ?_⟩
  · simp only [List.length_append, List.length_cons, List.length_nil,
      beBytes_length, getTimestampBuffer, hiv.1, hct.1, (hH _).1]
    omega
  · simp only [List.length_append, List.length_cons, List.length_nil,
      beBytes_length, getTimestampBuffer, hiv.1, hct.1, (hH _).1]
    omega
  · rw [hsl.2.2.1, hsl.2.2.2]

/-- C2: Validation order in decode.  For every token that passes the
    base64url-decode and length checks, a failing AES-CBC decryption yields
    `FailedDecryption` whatever the HMAC function or signature says (the
    signature is never consulted), and the invalid-signature error can only
    arise once decryption has succeeded. -/
theorem decrypt_before_verify (blockD : List Nat → List Nat → List Nat)
    (token : String) (sk ek buf : List Nat)
    (hdec : fromBase64Url token = some buf)
    (hlen : ¬(buf.length < 73 ∨ (buf.length - 57) % 16 ≠ 0)) :
    (aesCbcDecrypt (blockD ek) (tokenIv buf) (tokenCt buf) = none →
      ∀ hmacF : List Nat → List Nat → List Nat,
        doDecryption blockD hmacF token sk ek = .failedDecryption) ∧
    (∀ hmacF : List Nat → List Nat → List Nat,
      doDecryption blockD hmacF token sk ek = .invalidTokenSignature →
        ∃ pt, aesCbcDecrypt (blockD ek) (tokenIv buf) (tokenCt buf) =
          some pt) := by
  constructor
  · intro hfail hmacF
    unfold doDecryption
    rw [hdec]
    dsimp only
    rw [if_neg hlen, hfail]
  · intro hmacF hres
    unfold doDecryption at hres
    rw [hdec] at hres
    dsimp only at hres
    rw [if_neg hlen] at hres
    cases hq : aesCbcDecrypt (blockD ek) (tokenIv buf) (tokenCt buf) with
    | none => rw [hq] at hres; simp at hres
    | some pt => exact ⟨pt, rfl⟩

/-- C4: Token length validation.  For every token that base64url-decodes to
    a buffer, decode yields the invalid-length error exactly when the buffer
    length is below 73 or (length − 57) mod 16 is nonzero — and this holds
    for every block cipher, HMAC function and key pair, i.e. before any
    cryptographic operation. -/
theorem length_check_iff (blockD hmacF : List Nat → List Nat → List Nat)
    (token : String) (sk ek buf : List Nat)
    (hdec : fromBase64Url token = some buf) :
    doDecryption blockD hmacF token sk ek = .invalidTokenLength ↔
      (buf.length < 73 ∨ (buf.length - 57) % 16 ≠ 0) := by
  unfold doDecryption
  rw [hdec]
  dsimp only
  by_cases hc : buf.length < 73 ∨ (buf.length - 57) % 16 ≠ 0
  · rw [if_pos hc]
    simp [hc]
  · rw [if_neg hc]
    simp only [hc, iff_false]
    cases hq : aesCbcDecrypt (blockD ek) (tokenIv buf) (tokenCt buf) with
    | none => simp
    | some pt =>
        dsimp only
        by_cases hs : hmacF sk (tokenUnsigned buf) = tokenTag buf
        · rw [if_pos hs]; simp
        · rw [if_neg hs]; simp

/-- C8: The version byte is not validated.  A token that passes the
    encoding and length checks, whose first byte differs from 0x80, but
    whose ciphertext decrypts and whose HMAC verifies, is accepted and its
    plaintext returned. -/
theorem version_not_checked (blockD hmacF : List Nat → List Nat → List Nat)
    (token : String) (sk ek buf pt : List Nat)
    (hdec : fromBase64Url token = some buf)
    (hlen : ¬(buf.length < 73 ∨ (buf.length - 57) % 16 ≠ 0))
    (hver : buf.head? ≠ some 128)
    (hpt : aesCbcDecrypt (blockD ek) (tokenIv buf) (tokenCt buf) = some pt)
    (hsig : hmacF sk (tokenUnsigned buf) = tokenTag buf) :
    doDecryption blockD hmacF token sk ek = .ok pt := by
  unfold doDecryption
  rw [hdec]
  dsimp only
  rw [if_neg hlen, hpt]
  dsimp only
  rw [if_pos hsig]

/-- C3: parseSecret error taxonomy.  For every secret string, a failing
    base64url decode yields the invalid-encoding error; a decoded buffer
    whose length is not 32 yields the invalid-length error; otherwise the
    operation succeeds, binding bytes 0..15 as the signing key and bytes
    16..31 as the encryption key. -/
theorem parse_secret_taxonomy (s : String) :
    (fromBase64Url s = none → importKeys s = .invalidEncoding) ∧
    (∀ b, fromBase64Url s = some b → b.length ≠ 32 →
      importKeys s = .invalidLength) ∧
    (∀ b, fromBase64Url s = some b → b.length = 32 →
      importKeys s = .keys (b.take 16) (b.drop 16)) := by
  refine ⟨fun h => ?_, fun b hb hblen => ?_, fun b hb hblen => ?_⟩
  · unfold importKeys
    rw [h]
  · unfold importKeys
    rw [hb]
    dsimp only
    rw [if_pos hblen]
  · unfold importKeys
    rw [hb]
    dsimp only
    rw [if_neg (by simp [hblen])]

/-- C5 (counterexample): the timestamp is NOT the truncated wall-clock
    seconds.  At `Date.now() = 999` ms the code stores
    `Math.round(999 / 1000) = 1`, while truncation (`999 / 1000 = 0`) would
    store 0. -/
theorem timestamp_not_truncated :
    getTimestampBuffer 999 ≠ beBytes 8 (999 / 1000) := by decide

/-- An element outside the alphabet forces the all-or-nothing lookup to
    fail. -/
theorem mapOpt_eq_none (f : Char → Option Nat) :
    ∀ (l : List Char) (c : Char), c ∈ l → f c = none → mapOpt f l = none := by
  intro l
  induction l with
  | nil => intro c hc; simp at hc
  | cons d ds ih =>
      intro c hc hfc
      rcases List.mem_cons.mp hc with rfl | hc
      · simp [mapOpt, hfc]
      · cases hfd : f d <;> simp [mapOpt, hfd, ih c hc hfc]

/-- Stripping trailing padding keeps every non-`=` element. -/
theorem mem_dropTrailPad (l : List Char) (c : Char) (hc : c ≠ '=')
    (h : c ∈ l) : c ∈ dropTrailPad l := by
  have step : ∀ m : List Char, c ∈ m → m.getLast? = some '=' →
      c ∈ m.dropLast := by
    intro m hm hlast
    have hne : m ≠ [] := List.ne_nil_of_mem hm
    have hdec := List.dropLast_concat_getLast hne
    have hgl : m.getLast? = some (m.getLast hne) :=
      List.getLast?_eq_getLast m hne
    rw [hgl] at hlast
    have heq : m.getLast hne = '=' := Option.some_inj.mp hlast
    rw [← hdec] at hm
    rcases List.mem_append.mp hm with hm | hm
    · exact hm
    · rw [heq] at hm
      simp at hm
      exact absurd hm hc
  unfold dropTrailPad
  by_cases h1 : l.getLast? = some '='
  · rw [if_pos h1]
    have h2 : c ∈ l.dropLast := step l h h1
    by_cases h3 : l.dropLast.getLast? = some '='
    · rw [if_pos h3]
      exact step l.dropLast h2 h3
    · rw [if_neg h3]
      exact h2
  · rw [if_neg h1]
    exact h

/-- Mapping the URL-safe substitutes away preserves non-whitespace and
    non-padding characters. -/
theorem url_map_preserves (c : Char) :
    (isAsciiWhitespace c = false →
      isAsciiWhitespace ((fun c => if c = '-' then '+' else c)
        ((fun c => if c = '_' then '/' else c) c)) = false) ∧
    (c ≠ '=' → (fun c => if c = '-' then '+' else c)
      ((fun c => if c = '_' then '/' else c) c) ≠ '=') := by
  by_cases h1 : c = '_'
  · subst h1; exact ⟨fun _ => by decide, fun _ => by decide⟩
  · by_cases h2 : c = '-'
    · subst h2; exact ⟨fun _ => by decide, fun _ => by decide⟩
    · simp only [if_neg h1, if_neg h2]
      exact ⟨fun h => h, fun h => h⟩

/-- C7 (counterexample): `fromBase64Url` does not fail on every character
    outside the base64url alphabet — the standard-alphabet character `+` is
    outside the base64url alphabet yet the input `"++++"` decodes
    successfully. -/
theorem b64url_alphabet_counterexample :
    fromBase64Url "++++" = some [251, 239, 190] ∧
    isBase64UrlChar '+' = false ∧ '+' ∈ "++++".data := by decide

/-- C7 (amended): `fromBase64Url` accepts both padded and unpadded input,
    producing the same bytes for the padded and the unpadded spelling; it
    fails whenever the input contains a character it cannot cope with —
    anything outside the standard base64 alphabet, the URL-safe
    substitutes `-` and `_`, the padding character `=`, and ASCII
    whitespace (which is stripped). -/
theorem b64url_decode_amended :
    (∀ s : String, (∀ c ∈ s.data, isAsciiWhitespace c = false ∧ c ≠ '=') →
      s.data.length % 4 = 2 → fromBase64Url (s ++ "==") = fromBase64Url s) ∧
    (∀ s : String, (∀ c ∈ s.data, isAsciiWhitespace c = false ∧ c ≠ '=') →
      s.data.length % 4 = 3 → fromBase64Url (s ++ "=") = fromBase64Url s) ∧
    (∀ (s : String) (c : Char), c ∈ s.data → acceptableB64Char c = false →
      fromBase64Url s = none) := by
  have hmapped : ∀ (s : String), (∀ c ∈ s.data, isAsciiWhitespace c = false ∧
      c ≠ '=') →
      ((s.data.map (fun c => if c = '_' then '/' else c)).map
        (fun c => if c = '-' then '+' else c)).filter
          (fun c => !isAsciiWhitespace c) =
        (s.data.map (fun c => if c = '_' then '/' else c)).map
          (fun c => if c = '-' then '+' else c) := by
    intro s hs
    refine List.filter_eq_self.mpr fun c hc => ?_
    simp only [List.mem_map] at hc
    obtain ⟨c1, ⟨c0, hc0, rfl⟩, rfl⟩ := hc
    have := (url_map_preserves c0).1 (hs c0 hc0).1
    simp [this]
  refine ⟨?_, ?_, ?_⟩
  · intro s hs hlen
    unfold fromBase64Url
    rw [String.data_append]
    have hpad : ("==" : String).data = ['=', '='] := rfl
    rw [hpad, List.map_append, List.map_append]
    have hmp : (['=', '='].map (fun c => if c = '_' then '/' else c)).map
        (fun c => if c = '-' then '+' else c) = ['=', '='] := by decide
    rw [hmp]
    unfold atobDecode
    rw [List.filter_append, hmapped s hs]
    have hpf : (['=', '='].filter (fun c => !isAsciiWhitespace c)) =
        ['=', '='] := by decide
    rw [hpf]
    have hml : ((s.data.map (fun c => if c = '_' then '/' else c)).map
        (fun c => if c = '-' then '+' else c)).length = s.data.length := by
      simp
    rw [if_pos (by simp only [List.length_append, hml, List.length_cons,
      List.length_nil]; omega)]
    rw [if_neg (by simp only [hml]; omega)]
    rw [dropTrailPad_concat2]
  · intro s hs hlen
    unfold fromBase64Url
    rw [String.data_append]
    have hpad : ("=" : String).data = ['='] := rfl
    rw [hpad, List.map_append, List.map_append]
    have hmp : (['='].map (fun c => if c = '_' then '/' else c)).map
        (fun c => if c = '-' then '+' else c) = ['='] := by decide
    rw [hmp]
    unfold atobDecode
    rw [List.filter_append, hmapped s hs]
    have hpf : (['='].filter (fun c => !isAsciiWhitespace c)) = ['='] := by
      decide
    rw [hpf]
    have hml : ((s.data.map (fun c => if c = '_' then '/' else c)).map
        (fun c => if c = '-' then '+' else c)).length = s.data.length := by
      simp
    rw [if_pos (by simp only [List.length_append, hml, List.length_cons,
      List.length_nil]; omega)]
    rw [if_neg (by simp only [hml]; omega)]
    obtain hnil | ⟨u, z, hz⟩ := List.eq_nil_or_concat
      ((s.data.map (fun c => if c = '_' then '/' else c)).map
        (fun c => if c = '-' then '+' else c))
    · rw [hnil] at hml
      have hzero : s.data.length = 0 := by simpa using hml.symm
      omega
    · have hzne : z ≠ '=' := by
        have hzmem : z ∈ (s.data.map (fun c => if c = '_' then '/' else c)).map
            (fun c => if c = '-' then '+' else c) := by
          rw [hz]; simp
        simp only [List.mem_map] at hzmem
        obtain ⟨c1, ⟨c0, hc0, rfl⟩, rfl⟩ := hzmem
        exact (url_map_preserves c0).2 (hs c0 hc0).2
      rw [hz, List.concat_eq_append, List.append_assoc]
      rw [show (([z] : List Char) ++ ['=']) = [z, '='] from rfl]
      rw [dropTrailPad_concat1 u z hzne]
  · intro s c hc hbad
    have hidx : b64Index c = none := by
      rcases hq : b64Index c with _ | v
      · rfl
      · rw [acceptableB64Char, hq] at hbad
        simp at hbad
    have hflags : c ≠ '-' ∧ c ≠ '_' ∧ c ≠ '=' ∧
        isAsciiWhitespace c = false := by
      rw [acceptableB64Char] at hbad
      simp only [Bool.or_eq_false_iff, decide_eq_false_iff_not] at hbad
      exact ⟨hbad.1.1.1.2, hbad.1.1.2, hbad.1.2, hbad.2⟩
    have hfix : (fun c => if c = '-' then '+' else c)
        ((fun c => if c = '_' then '/' else c) c) = c := by
      simp only [if_neg hflags.2.1, if_neg hflags.1]
    have hmem : c ∈ (s.data.map (fun c => if c = '_' then '/' else c)).map
        (fun c => if c = '-' then '+' else c) := by
      rw [← hfix]
      exact List.mem_map_of_mem _ (List.mem_map_of_mem _ hc)
    have hcF : c ∈ ((s.data.map (fun c => if c = '_' then '/' else c)).map
        (fun c => if c = '-' then '+' else c)).filter
          (fun c => !isAsciiWhitespace c) :=
      List.mem_filter.mpr ⟨hmem, by simp [hflags.2.2.2]⟩
    have main : ∀ data : List Char, c ∈ data → decodeClean data = none := by
      intro data hcd
      unfold decodeClean
      rw [mapOpt_eq_none b64Index data c hcd hidx]
      split <;> rfl
    unfold fromBase64Url atobDecode
    split
    · exact main _ (mem_dropTrailPad _ c hflags.2.2.1 hcF)
    · exact main _ hcF

/-- C9: `fromBase64Url` also accepts the standard base64 alphabet — text
    encoded with `+` and `/` (the output of plain `btoa`) decodes
    successfully, to the same bytes as the URL-safe spelling. -/
theorem std_alphabet_accepted (b : List Nat) (hb : ValidBytes b) :
    fromBase64Url (String.mk (btoaEncode b)) = some b ∧
    fromBase64Url (String.mk (btoaEncode b)) = fromBase64Url (toBase64Url b) := by
  refine ⟨fromBase64Url_std b hb, ?_⟩
  rw [fromBase64Url_std b hb, fromBase64Url_toBase64Url b hb]

/-- Standard base64 of a buffer whose length is ≡ 2 (mod 3) ends in `=`. -/
theorem btoaEncode_last2 (b : List Nat) (h : b.length % 3 = 2) :
    (btoaEncode b).getLast? = some '=' := by
  induction b using btoaEncode.induct with
  | case1 => simp at h
  | case2 b1 => simp at h
  | case3 b1 b2 => rfl
  | case4 b1 b2 b3 rest ih =>
      have hr : rest.length % 3 = 2 := by
        simp only [List.length_cons] at h
        omega
      have hne : btoaEncode rest ≠ [] := by
        intro h0
        have hlen0 := congrArg List.length h0
        rw [btoaEncode_length] at hlen0
        simp at hlen0
        omega
      show ([b64Char (b1 / 4), b64Char (b1 % 4 * 16 + b2 / 16),
        b64Char (b2 % 16 * 4 + b3 / 64), b64Char (b3 % 64)] ++
        btoaEncode rest).getLast? = some '='
      rw [List.getLast?_append, ih hr]
      rfl

/-- C10: Every output of `generateSecret` parses as a valid secret.  The
    base64url encoding of any 32 valid bytes is a 44-character padded
    string that decodes back to exactly those bytes, and `importKeys` on it
    succeeds with the two 16-byte halves. -/
theorem generate_secret_roundtrip (b : List Nat) (hlen : b.length = 32)
    (hb : ValidBytes b) :
    (generateSecret b).length = 44 ∧
    (generateSecret b).data.getLast? = some '=' ∧
    fromBase64Url (generateSecret b) = some b ∧
    importKeys (generateSecret b) = .keys (b.take 16) (b.drop 16) := by
  have hdec : fromBase64Url (generateSecret b) = some b :=
    fromBase64Url_toBase64Url b hb
  refine ⟨?_, ?_, hdec, ?_⟩
  · show ((toBase64Url b).data).length = 44
    show (((btoaEncode b).map (fun c => if c = '+' then '-' else c)).map
      (fun c => if c = '/' then '_' else c)).length = 44
    simp only [List.length_map, btoaEncode_length, hlen]
  · show (((btoaEncode b).map (fun c => if c = '+' then '-' else c)).map
      (fun c => if c = '/' then '_' else c)).getLast? = some '='
    rw [List.getLast?_map, List.getLast?_map,
      btoaEncode_last2 b (by rw [hlen])]
    rfl
  · unfold importKeys
    rw [hdec]
    dsimp only
    rw [if_neg (by simp [hlen])]

set_option maxRecDepth 100000

/-- Witness for C1: the round-trip theorem applied with the identity block
    cipher, a constant 32-byte HMAC, a zero IV, both to the empty message
    and to a two-byte message. -/
theorem fernet_roundtrip_witness :
    doDecryption (fun _ b => b) (fun _ _ => List.replicate 32 7)
      (doEncryption (fun _ b => b) (fun _ _ => List.replicate 32 7)
        (List.replicate 16 0) 1700000000123 [] (List.replicate 16 0)
        (List.replicate 16 0)) (List.replicate 16 0) (List.replicate 16 0) =
      .ok [] ∧
    doDecryption (fun _ b => b) (fun _ _ => List.replicate 32 7)
      (doEncryption (fun _ b => b) (fun _ _ => List.replicate 32 7)
        (List.replicate 16 0) 1700000000123 [104, 105] (List.replicate 16 0)
        (List.replicate 16 0)) (List.replicate 16 0) (List.replicate 16 0) =
      .ok [104, 105] := by
  have h7 : ValidBytes (List.replicate 32 7) := by decide
  exact ⟨fernet_roundtrip (fun _ b => b) (fun _ b => b)
      (fun _ _ => List.replicate 32 7)
      (List.replicate 16 0) 1700000000123 []
      (List.replicate 16 0) (List.replicate 16 0)
      "AAAAAAAAAAAAAAAAAAAAAAAAAAAAAAAAAAAAAAAAAAA=" (by decide)
      (fun _ h => h)
      (fun _ _ => rfl) (fun _ => ⟨rfl, h7⟩) (by decide) (by decide),
    fernet_roundtrip (fun _ b => b) (fun _ b => b)
      (fun _ _ => List.replicate 32 7)
      (List.replicate 16 0) 1700000000123 [104, 105]
      (List.replicate 16 0) (List.replicate 16 0)
      "AAAAAAAAAAAAAAAAAAAAAAAAAAAAAAAAAAAAAAAAAAA=" (by decide)
      (fun _ h => h)
      (fun _ _ => rfl) (fun _ => ⟨rfl, h7⟩) (by decide) (by decide)⟩

/-- Witness for C6: the token-structure theorem applied with the identity
    block cipher and a constant HMAC on a concrete message. -/
theorem token_structure_witness :
    fromBase64Url (doEncryption (fun _ b => b) (fun _ _ => List.replicate 32 7)
        (List.replicate 16 0) 0 [104, 105] [] []) =
      some (([128] ++ getTimestampBuffer 0 ++ List.replicate 16 0 ++
        aesCbcEncrypt (fun b => b) (List.replicate 16 0) [104, 105]) ++
        List.replicate 32 7) ∧
    (aesCbcEncrypt (fun b => b) (List.replicate 16 0) [104, 105]).length %
      16 = 0 ∧
    0 < (aesCbcEncrypt (fun b => b) (List.replicate 16 0)
      [104, 105]).length := by
  have h7 : ValidBytes (List.replicate 32 7) := by decide
  have h := token_structure (fun _ b => b) (fun _ _ => List.replicate 32 7)
    (List.replicate 16 0) 0 [104, 105] [] [] (fun _ hb => hb)
    (fun _ => ⟨rfl, h7⟩) (by decide) (by decide)
  exact ⟨h.1, h.2.2.2.1, h.2.2.2.2.1⟩

/-- Witness for C2: a concrete 73-byte all-zero token whose AES-CBC
    decryption fails (zero is not a valid PKCS#7 pad byte) reports
    failed-decryption. -/
theorem decrypt_before_verify_witness :
    doDecryption (fun _ b => b) (fun _ _ => List.replicate 32 0)
      "AAAAAAAAAAAAAAAAAAAAAAAAAAAAAAAAAAAAAAAAAAAAAAAAAAAAAAAAAAAAAAAAAAAAAAAAAAAAAAAAAAAAAAAAAAAAAAAAAA==" [] [] = .failedDecryption :=
  (decrypt_before_verify (fun _ b => b) "AAAAAAAAAAAAAAAAAAAAAAAAAAAAAAAAAAAAAAAAAAAAAAAAAAAAAAAAAAAAAAAAAAAAAAAAAAAAAAAAAAAAAAAAAAAAAAAAAA==" [] []
    (List.replicate 73 0) (by decide) (by decide)).1 (by decide) _

/-- Witness for C4: a decoded buffer of length 72 is rejected with the
    invalid-length error while one of length 73 is not. -/
theorem length_check_witness :
    doDecryption (fun _ b => b) (fun _ _ => List.replicate 32 0)
      "AAAAAAAAAAAAAAAAAAAAAAAAAAAAAAAAAAAAAAAAAAAAAAAAAAAAAAAAAAAAAAAAAAAAAAAAAAAAAAAAAAAAAAAAAAAAAAAA" [] [] = .invalidTokenLength ∧
    ¬(doDecryption (fun _ b => b) (fun _ _ => List.replicate 32 0)
      "AAAAAAAAAAAAAAAAAAAAAAAAAAAAAAAAAAAAAAAAAAAAAAAAAAAAAAAAAAAAAAAAAAAAAAAAAAAAAAAAAAAAAAAAAAAAAAAAAA==" [] [] = .invalidTokenLength) :=
  ⟨(length_check_iff (fun _ b => b) (fun _ _ => List.replicate 32 0)
      "AAAAAAAAAAAAAAAAAAAAAAAAAAAAAAAAAAAAAAAAAAAAAAAAAAAAAAAAAAAAAAAAAAAAAAAAAAAAAAAAAAAAAAAAAAAAAAAA" [] [] (List.replicate 72 0) (by decide)).mpr (by decide),
   fun h => absurd ((length_check_iff (fun _ b => b)
      (fun _ _ => List.replicate 32 0)
      "AAAAAAAAAAAAAAAAAAAAAAAAAAAAAAAAAAAAAAAAAAAAAAAAAAAAAAAAAAAAAAAAAAAAAAAAAAAAAAAAAAAAAAAAAAAAAAAAAA==" [] [] (List.replicate 73 0) (by decide)).mp h) (by decide)⟩

/-- Witness for C8: a concrete token whose version byte is 0 (not 0x80) but
    which decrypts and verifies is accepted. -/
theorem version_not_checked_witness :
    doDecryption (fun _ b => b) (fun _ _ => List.replicate 32 7)
      (toBase64Url ([0] ++ List.replicate 8 0 ++ List.replicate 16 0 ++
        List.replicate 16 1 ++ List.replicate 32 7)) [] [] =
      .ok (List.replicate 15 1) :=
  version_not_checked (fun _ b => b) (fun _ _ => List.replicate 32 7)
    (toBase64Url ([0] ++ List.replicate 8 0 ++ List.replicate 16 0 ++
      List.replicate 16 1 ++ List.replicate 32 7)) [] []
    ([0] ++ List.replicate 8 0 ++ List.replicate 16 0 ++
      List.replicate 16 1 ++ List.replicate 32 7) (List.replicate 15 1)
    (by decide) (by decide) (by decide) (by decide) (by decide)

/-- Witness for C3: the three branches of the secret-parsing taxonomy at
    concrete secrets. -/
theorem parse_secret_witness :
    importKeys "$$$$" = .invalidEncoding ∧
    importKeys "QQ" = .invalidLength ∧
    importKeys "AAAAAAAAAAAAAAAAAAAAAAAAAAAAAAAAAAAAAAAAAAA=" =
      .keys ((List.replicate 32 0).take 16) ((List.replicate 32 0).drop 16) :=
  ⟨(parse_secret_taxonomy "$$$$").1 (by decide),
   (parse_secret_taxonomy "QQ").2.1 [65] (by decide) (by decide),
   (parse_secret_taxonomy "AAAAAAAAAAAAAAAAAAAAAAAAAAAAAAAAAAAAAAAAAAA=").2.2
     (List.replicate 32 0) (by decide) (by decide)⟩

/-- Witness for C5 (amended): the timestamp for a concrete wall-clock value
    encodes its rounded second count. -/
theorem timestamp_spec_witness :
    (1700000000123 + 500) / 1000 < 2 ^ 64 ∧
    toBENat (getTimestampBuffer 1700000000123) =
      (1700000000123 + 500) / 1000 :=
  ⟨by decide, (getTimestampBuffer_spec 1700000000123 (by decide)).2.2⟩

/-- Witness for C7 (amended): padded and unpadded spellings decode equally,
    and an out-of-alphabet character forces failure. -/
theorem b64url_decode_amended_witness :
    fromBase64Url "QQ==" = fromBase64Url "QQ" ∧
    fromBase64Url "QUI=" = fromBase64Url "QUI" ∧
    fromBase64Url "%" = none :=
  ⟨b64url_decode_amended.1 "QQ" (by decide) (by decide),
   b64url_decode_amended.2.1 "QUI" (by decide) (by decide),
   b64url_decode_amended.2.2 "%" '%' (by decide) (by decide)⟩

/-- Witness for C9: the bytes that standard base64 spells `"++++"` decode
    through `fromBase64Url`. -/
theorem std_alphabet_witness :
    fromBase64Url (String.mk (btoaEncode [251, 239, 190])) =
      some [251, 239, 190] :=
  (std_alphabet_accepted [251, 239, 190] (by decide)).1

/-- Witness for C10: the all-zero 32-byte secret round-trips through
    `generateSecret` and `importKeys`. -/
theorem generate_secret_witness :
    (generateSecret (List.replicate 32 0)).length = 44 ∧
    importKeys (generateSecret (List.replicate 32 0)) =
      .keys ((List.replicate 32 0).take 16)
        ((List.replicate 32 0).drop 16) := by
  have h := generate_secret_roundtrip (List.replicate 32 0) (by decide)
    (by decide)
  exact ⟨h.1, h.2.2.2⟩

end FernetTS
